import Mathlib

/-
  Verification development for the Kilauea 2018 summit-earthquake analysis
  notebook (kilauea_altair_final.ipynb).

  The notebook's pipeline is embedded shallowly:
  * timestamps are integers (nanoseconds since epoch, as in pandas);
  * magnitudes and thresholds are rationals (exact stand-ins for the
    finite-precision decimals of the catalog); the transcendental b-value
    formulas live in ℝ;
  * the float value NaN, produced by np.mean on an empty slice, is modelled
    by `none` in an Option-valued variant of the estimator.
-/

/-- An earthquake record as used by the statistics pipeline: its magnitude
and the explosion-set number assigned by the partitioner
(columns `mag` and `ex_set` of the `events` dataframe). -/
structure Event where
  mag : ℚ
  ex_set : ℕ
deriving DecidableEq

/- ---------------------------------------------------------------------
   Set partitioner (notebook cell "Assign earthquakes to their explosion set").

   The loop
     i = 1
     for start, end in zip(start_times, end_times):
         mask = (events['DTtime'] >= start) & (events['DTtime'] < end)
         events.loc[mask,'ex_set'] = i
         i += 1
     mask = events['DTtime'] > end_times[-1]
     events.loc[mask, 'ex_set'] = i
   acts row-wise on each timestamp; later writes overwrite earlier ones.
   With B the boundary list (explode.DTtime[12:]), start_times = B[:-1]
   and end_times = B[1:], so the zipped pairs are (B[k], B[k+1]).
   --------------------------------------------------------------------- -/

/-- One pass of the assignment loop over the zipped (start, end) pairs for a
single timestamp `t`: the accumulator holds the current `ex_set` value
(initially 0) and `i` the running set counter; a matching pair overwrites. -/
def assignFold (t : ℤ) : List (ℤ × ℤ) → ℕ → ℕ → ℕ
  | [], _, acc => acc
  | (s, e) :: rest, i, acc =>
      assignFold t rest (i + 1) (if s ≤ t ∧ t < e then i else acc)

/-- The zipped (start, end) pairs: `zip(start_times, end_times)` with
`start_times = B[:-1]` and `end_times = B[1:]`. -/
def boundaryPairs (B : List ℤ) : List (ℤ × ℤ) := B.dropLast.zip B.tail

/-- The `ex_set` value the notebook assigns to a quake at time `t`, given the
boundary times `B` (the explosion times from the chosen start index on):
0 by default, overwritten by the loop over the pairs, and finally
overwritten with the next counter value when `t > end_times[-1]`. -/
def exSet (B : List ℤ) (t : ℤ) : ℕ :=
  let r := assignFold t (boundaryPairs B) 1 0
  match B.tail.getLast? with
  | none => r
  | some lastEnd => if lastEnd < t then (boundaryPairs B).length + 1 else r

/- ---------------------------------------------------------------------
   B-value estimator (class SetStats) and the loop that drives it.
   --------------------------------------------------------------------- -/

/-- `self.magmu = np.mean(self.mags)`: arithmetic mean of the magnitudes,
taken in ℝ.  (For the empty list np.mean is NaN; see `pyMean`/`getBopt`.) -/
noncomputable def magmu (mags : List ℚ) : ℝ :=
  ((mags.map fun m : ℚ => (m : ℝ)).sum) / mags.length

/-- `SetStats.getB`: `math.log10(math.e)/(self.magmu-(self.mc - 0.5*0.1))`. -/
noncomputable def getB (mags : List ℚ) (mc : ℚ) : ℝ :=
  Real.logb 10 (Real.exp 1) / (magmu mags - ((mc : ℝ) - 0.5 * 0.1))

/-- `SetStats.getB_err`: `self.getB()/math.sqrt(self.Ntot)` with
`Ntot = len(mags)`. -/
noncomputable def getB_err (mags : List ℚ) (mc : ℚ) : ℝ :=
  getB mags mc / Real.sqrt (mags.length)

/-- `SetStats.getA`: `math.log10(self.Ntot) - self.getB()*self.mc`. -/
noncomputable def getA (mags : List ℚ) (mc : ℚ) : ℝ :=
  Real.logb 10 (mags.length) - getB mags mc * (mc : ℝ)

/-- `events_stats = events_stats[events_stats.ex_set != 0]`: the statistics
pipeline drops set 0 before any estimate is formed. -/
def eventsStats (evs : List Event) : List Event :=
  evs.filter fun e => !(e.ex_set == 0)

/-- `events_list = events_stats.loc[(events_stats.mag >= magc) &
(events_stats.ex_set == setnum)].mag.values`: the qualifying magnitudes of
one set for one completeness threshold. -/
def qualifying (evs : List Event) (setnum : ℕ) (magc : ℚ) : List ℚ :=
  (evs.filter fun e => decide (magc ≤ e.mag) && (e.ex_set == setnum)).map
    fun e => e.mag

/-- The b-value the loop body computes for one (set, threshold) pair:
`SetStats(events_list, magc).getB()`. -/
noncomputable def bvalOf (evs : List Event) (setnum : ℕ) (magc : ℚ) : ℝ :=
  getB (qualifying (eventsStats evs) setnum magc) magc

/-- The b-value error the loop body computes for one (set, threshold) pair:
`SetStats(events_list, magc).getB_err()`. -/
noncomputable def berrOf (evs : List Event) (setnum : ℕ) (magc : ℚ) : ℝ :=
  getB_err (qualifying (eventsStats evs) setnum magc) magc

/-- `np.mean` on a list of floats: NaN (modelled as `none`) on the empty
list, otherwise the exact mean. -/
def pyMean (mags : List ℚ) : Option ℚ :=
  if mags.isEmpty then none else some (mags.sum / mags.length)

/-- `SetStats.getB` with float-NaN propagation made explicit: a NaN mean
(empty event list) propagates through the arithmetic and the division, so
the result is NaN (`none`).  No branch of the source raises an exception
here and no set/threshold diagnostic exists anywhere in the class. -/
noncomputable def getBopt (mags : List ℚ) (mc : ℚ) : Option ℝ :=
  (pyMean mags).map fun mu =>
    Real.logb 10 (Real.exp 1) / ((mu : ℝ) - ((mc : ℝ) - 0.5 * 0.1))

/-- The completeness magnitudes iterated by the loop:
`mag_min = [1.8,1.9,2.0,2.1,2.2,2.3,2.4]`. -/
def magMin : List ℚ := [1.8, 1.9, 2.0, 2.1, 2.2, 2.3, 2.4]

/-- The index set of the b-value loop: every (set, threshold) pair for which
an estimate is formed (`for setnum in events_stats.ex_set.unique(): for magc
in mag_min:`).  `unique()` is modelled by `dedup` (the claims below only use
membership, not the order of first occurrence). -/
def uniqueSets (evs : List Event) : List ℕ :=
  ((eventsStats evs).map fun e => e.ex_set).dedup

/-- One row of the b-value result tables (`bvals_df`/`berrs_df`, melted into
`bvals_long`): set number, completeness magnitude, b-value and b-error. -/
structure BRow where
  ex_set : ℕ
  mag_c : ℚ
  bval : ℝ
  berr : ℝ

/-- The rows of the b-value tables produced by the doubly nested loop:
one row per (set, threshold) pair of the index set, holding `getB` and
`getB_err` of the qualifying events (`bvals_df.loc[setnum, magc] = b`,
`berrs_df.loc[setnum, magc] = berr`). -/
noncomputable def bTable (evs : List Event) : List BRow :=
  (uniqueSets evs).flatMap fun s =>
    magMin.map fun mc => ⟨s, mc, bvalOf evs s mc, berrOf evs s mc⟩

/- ---------------------------------------------------------------------
   Frequency-magnitude aggregator (cells building quake_sum, quake_sum_div,
   quake_cumsum, quake_cumsum_norm).
   --------------------------------------------------------------------- -/

/-- `events_mags['mag'].round(decimals=1)`: magnitude rounded to the nearest
tenth.  (numpy rounds ties to even while `round` rounds them up; the two
differ only at exact midpoints, which none of the properties below
depend on.) -/
def roundTenth (m : ℚ) : ℚ := (round (10 * m) : ℤ) / 10

/-- The magnitude bins of the pivot table: the distinct rounded magnitudes
occurring in the catalog (`pivot_table(index='mag', ...)`). -/
def bins (evs : List Event) : List ℚ :=
  (evs.map fun e => roundTenth e.mag).dedup

/-- `quake_sum.loc[m, s]`: the number of quakes of set `s` in bin `m`
(`aggfunc='count'`, `fill_value=0`). -/
def binCount (evs : List Event) (s : ℕ) (m : ℚ) : ℕ :=
  (evs.filter fun e => decide (e.ex_set = s) && decide (roundTenth e.mag = m)).length

/-- `quake_sum.max(axis=0)[s]`: the largest bin count of set `s`. -/
def maxBinCount (evs : List Event) (s : ℕ) : ℕ :=
  ((bins evs).map (binCount evs s)).foldr max 0

/-- `quake_sum_div.loc[m, s] = quake_sum.div(quake_sum.max(axis=0),
axis=1).loc[m, s]`: bin count normalized by the set's largest bin count. -/
def normCount (evs : List Event) (s : ℕ) (m : ℚ) : ℚ :=
  (binCount evs s m : ℚ) / (maxBinCount evs s : ℚ)

/-- `quake_cumsum.loc[m, s]`: the reverse cumulative sum
(`quake_sum[::-1].cumsum()`, then sorted back by magnitude): the sum of the
bin counts of set `s` over all pivot bins at magnitude `m` and larger. -/
def cumCount (evs : List Event) (s : ℕ) (m : ℚ) : ℕ :=
  (((bins evs).filter fun b => decide (m ≤ b)).map (binCount evs s)).sum

/-- The total number of quakes of set `s` in the catalog. -/
def totalCount (evs : List Event) (s : ℕ) : ℕ :=
  (evs.filter fun e => decide (e.ex_set = s)).length

/-- `quake_cumsum.max(axis=0)[s]`: the largest reverse-cumulative count of
set `s`, the constant the code divides by. -/
def maxCumCount (evs : List Event) (s : ℕ) : ℕ :=
  ((bins evs).map (cumCount evs s)).foldr max 0

/-- `quake_cumsum_norm.loc[m, s]`: reverse-cumulative count normalized by
the set's largest cumulative count. -/
def normCum (evs : List Event) (s : ℕ) (m : ℚ) : ℚ :=
  (cumCount evs s m : ℚ) / (maxCumCount evs s : ℚ)

/-- The smallest magnitude bin of the pivot table. -/
def minBin (evs : List Event) : ℚ :=
  match bins evs with
  | [] => 0
  | b :: bs => bs.foldr min b

/-- Sample catalog used to instantiate hypotheses of the theorems below. -/
def sampleEvents : List Event := [⟨2, 1⟩]

/-- Sample catalog with two magnitude bins, for the aggregator witnesses. -/
def fmdEvents : List Event := [⟨2, 1⟩, ⟨2.3, 1⟩]

/-- A concrete row of `bTable sampleEvents`, used as a witness input. -/
noncomputable def sampleRow : BRow :=
  ⟨1, 1.8, bvalOf sampleEvents 1 1.8, berrOf sampleEvents 1 1.8⟩

/- ---------------------------------------------------------------------
   Lemmas and claim theorems about the b-value estimator.
   --------------------------------------------------------------------- -/

lemma listSum_ge_length_mul (c : ℚ) (l : List ℚ) (h : ∀ m ∈ l, c ≤ m) :
    (l.length : ℝ) * (c : ℝ) ≤ ((l.map fun m : ℚ => (m : ℝ)).sum) := by
  induction l with
  | nil => simp
  | cons m l ih =>
      have hm : (c : ℝ) ≤ (m : ℝ) := by
        exact_mod_cast h m (List.mem_cons_self m l)
      have ih' := ih fun x hx => h x (List.mem_cons_of_mem m hx)
      simp only [List.length_cons, List.map_cons, List.sum_cons, Nat.cast_add,
        Nat.cast_one]
      linarith

lemma logb_ten_exp_one_pos : 0 < Real.logb 10 (Real.exp 1) := by
  rw [Real.logb, Real.log_exp]
  exact div_pos one_pos (Real.log_pos (by norm_num))

/-- Claim C3: for every set and completeness magnitude, the b-value the loop
computes for that pair equals log10(e) divided by (the arithmetic mean of the
qualifying magnitudes minus (Mc - 0.05)). -/
theorem bval_formula (evs : List Event) (setnum : ℕ) (magc : ℚ) :
    bvalOf evs setnum magc =
      Real.logb 10 (Real.exp 1) /
        ((((qualifying (eventsStats evs) setnum magc).map fun m : ℚ => (m : ℝ)).sum /
            (qualifying (eventsStats evs) setnum magc).length) -
          ((magc : ℝ) - 0.05)) := by
  unfold bvalOf getB magmu
  norm_num

/-- Claim C4: for every set and completeness magnitude with at least one
qualifying event, the reported b-value standard error equals the b-value
divided by the square root of the qualifying-event count, exactly. -/
theorem berr_formula (evs : List Event) (setnum : ℕ) (magc : ℚ)
    (h : 1 ≤ (qualifying (eventsStats evs) setnum magc).length) :
    berrOf evs setnum magc =
      bvalOf evs setnum magc /
        Real.sqrt ((qualifying (eventsStats evs) setnum magc).length) := rfl

/-- Witness for C4: the sample catalog has one qualifying event of set 1 at
threshold 1.8, and the error/b-value relation holds there. -/
theorem berr_formula_witness :
    1 ≤ (qualifying (eventsStats sampleEvents) 1 (9/5)).length ∧
      berrOf sampleEvents 1 (9/5) =
        bvalOf sampleEvents 1 (9/5) /
          Real.sqrt ((qualifying (eventsStats sampleEvents) 1 (9/5)).length) := by
  refine ⟨?_, berr_formula sampleEvents 1 (9/5) ?_⟩ <;>
    norm_num [qualifying, eventsStats, sampleEvents, List.filter]

/-- Claim C6: for each set and threshold, the estimator also provides the
a-value, equal to log10(N) minus the b-value times the completeness
magnitude, where N is the count of qualifying events. -/
theorem aval_formula (evs : List Event) (setnum : ℕ) (magc : ℚ) :
    getA (qualifying (eventsStats evs) setnum magc) magc =
      Real.logb 10 ((qualifying (eventsStats evs) setnum magc).length) -
        bvalOf evs setnum magc * (magc : ℝ) := rfl

/-- Claim C2, the code evaluated at the failing input: with no qualifying
event for the pair (set 1, Mc = 2.4) the b-value computation yields NaN
(modelled by `none`); no error is raised and no diagnostic is produced. -/
theorem getB_empty_nan :
    getBopt (qualifying (eventsStats sampleEvents) 1 (12/5)) (12/5) = none := by
  have h : qualifying (eventsStats sampleEvents) 1 (12/5) = [] := by
    norm_num [qualifying, eventsStats, sampleEvents, List.filter]
  rw [h]
  rfl

/-- Claim C9: on a nonempty list of magnitudes all at least Mc, the
denominator of the b-value formula is at least 0.05 (hence no division by
zero), the b-value is strictly positive, and the b-value error (whose
denominator sqrt(N) is positive since N is at least 1) is strictly
positive as well. -/
theorem getB_denom_pos (mags : List ℚ) (mc : ℚ) (hne : mags ≠ [])
    (hge : ∀ m ∈ mags, mc ≤ m) :
    0.05 ≤ magmu mags - ((mc : ℝ) - 0.05) ∧
      0 < getB mags mc ∧ 0 < getB_err mags mc := by
  have hlen : 0 < mags.length := List.length_pos.mpr hne
  have hlenR : (0 : ℝ) < (mags.length : ℝ) := by exact_mod_cast hlen
  have hsum := listSum_ge_length_mul mc mags hge
  have hmean : (mc : ℝ) ≤ magmu mags := by
    rw [magmu, le_div_iff₀ hlenR]
    linarith
  have hden : 0.05 ≤ magmu mags - ((mc : ℝ) - 0.05) := by linarith
  have hden' : 0 < magmu mags - ((mc : ℝ) - 0.5 * 0.1) := by
    have : (0.5 * 0.1 : ℝ) = 0.05 := by norm_num
    rw [this]
    linarith
  have hB : 0 < getB mags mc := by
    rw [getB]
    exact div_pos logb_ten_exp_one_pos hden'
  refine ⟨hden, hB, ?_⟩
  rw [getB_err]
  exact div_pos hB (Real.sqrt_pos.mpr hlenR)

/-- Witness for C9: a single magnitude-2 event with Mc = 1.8. -/
theorem getB_denom_pos_witness :
    0.05 ≤ magmu [2] - (((9/5 : ℚ) : ℝ) - 0.05) ∧
      0 < getB [2] (9/5) ∧ 0 < getB_err [2] (9/5) := by
  refine getB_denom_pos [2] (9/5) (by simp) ?_
  intro m hm
  rw [List.mem_singleton] at hm
  subst hm
  norm_num

lemma mem_uniqueSets_ne_zero (evs : List Event) (s : ℕ)
    (hs : s ∈ uniqueSets evs) : s ≠ 0 := by
  unfold uniqueSets eventsStats at hs
  rw [List.mem_dedup] at hs
  obtain ⟨e, he, rfl⟩ := List.mem_map.mp hs
  have hf := List.of_mem_filter he
  simpa using hf

/-- Claim C10: every row of the b-value result table comes from a set other
than set 0; set 0 is filtered out of the statistics pipeline before any
(set, threshold) estimate is formed. -/
theorem bTable_no_set_zero (evs : List Event) (r : BRow)
    (hr : r ∈ bTable evs) : r.ex_set ≠ 0 := by
  unfold bTable at hr
  obtain ⟨s, hs, hr'⟩ := List.mem_flatMap.mp hr
  obtain ⟨mc, _, rfl⟩ := List.mem_map.mp hr'
  exact mem_uniqueSets_ne_zero evs s hs

/-- Witness for C10: the first row of the table for the sample catalog is in
the table and carries set number 1, not 0. -/
theorem bTable_no_set_zero_witness :
    sampleRow ∈ bTable sampleEvents ∧ sampleRow.ex_set ≠ 0 := by
  have hs : (1 : ℕ) ∈ uniqueSets sampleEvents := by
    simp [uniqueSets, eventsStats, sampleEvents, List.filter]
  have hmem : sampleRow ∈ bTable sampleEvents := by
    refine List.mem_flatMap.mpr ⟨1, hs, ?_⟩
    simp only [magMin, List.map_cons]
    exact List.mem_cons_self _ _
  exact ⟨hmem, bTable_no_set_zero sampleEvents sampleRow hmem⟩

/- ---------------------------------------------------------------------
   Lemmas and claim theorems about the frequency-magnitude aggregator.
   --------------------------------------------------------------------- -/

lemma natMem_le_foldr_max (a : ℕ) (l : List ℕ) (h : a ∈ l) :
    a ≤ l.foldr max 0 := by
  induction l with
  | nil => cases h
  | cons b l ih =>
      rw [List.foldr_cons]
      rcases List.mem_cons.mp h with rfl | h'
      · exact le_max_left _ _
      · exact le_trans (ih h') (le_max_right _ _)

lemma natFoldr_max_le (l : List ℕ) (n : ℕ) (h : ∀ a ∈ l, a ≤ n) :
    l.foldr max 0 ≤ n := by
  induction l with
  | nil => simp
  | cons b l ih =>
      rw [List.foldr_cons]
      exact max_le (h b (List.mem_cons_self b l))
        (ih fun a ha => h a (List.mem_cons_of_mem b ha))

lemma length_filter_mono {α : Type} (p q : α → Bool) (l : List α)
    (h : ∀ a ∈ l, p a = true → q a = true) :
    (l.filter p).length ≤ (l.filter q).length := by
  rw [← List.countP_eq_length_filter, ← List.countP_eq_length_filter]
  exact List.countP_mono_left h

lemma mem_bins (evs : List Event) (e : Event) (he : e ∈ evs) :
    roundTenth e.mag ∈ bins evs :=
  List.mem_dedup.mpr (List.mem_map_of_mem _ he)

lemma binCount_mem_bins (evs : List Event) (s : ℕ) (m : ℚ)
    (h : 0 < binCount evs s m) : m ∈ bins evs := by
  unfold binCount at h
  rw [List.length_pos] at h
  obtain ⟨e, he⟩ := List.exists_mem_of_ne_nil _ h
  rw [List.mem_filter, Bool.and_eq_true, decide_eq_true_eq, decide_eq_true_eq] at he
  exact he.2.2 ▸ mem_bins evs e he.1

lemma binCount_le_max (evs : List Event) (s : ℕ) (m : ℚ) :
    binCount evs s m ≤ maxBinCount evs s := by
  rcases Nat.eq_zero_or_pos (binCount evs s m) with h | h
  · omega
  · exact natMem_le_foldr_max _ _
      (List.mem_map_of_mem _ (binCount_mem_bins evs s m h))

lemma maxBinCount_pos (evs : List Event) (s : ℕ)
    (h : ∃ e ∈ evs, e.ex_set = s) : 0 < maxBinCount evs s := by
  obtain ⟨e, he, hs⟩ := h
  have h1 : 0 < binCount evs s (roundTenth e.mag) := by
    unfold binCount
    rw [List.length_pos]
    intro hnil
    have hmem : e ∈ evs.filter fun e' =>
        decide (e'.ex_set = s) && decide (roundTenth e'.mag = roundTenth e.mag) := by
      rw [List.mem_filter]
      exact ⟨he, by simp [hs]⟩
    rw [hnil] at hmem
    cases hmem
  exact lt_of_lt_of_le h1 (binCount_le_max evs s _)

/-- Claim C7: per set (present in the catalog), every normalized bin count
lies in [0, 1], and a bin whose count attains the set's maximum bin count is
mapped to exactly 1. -/
theorem normCount_bounds (evs : List Event) (s : ℕ)
    (h : ∃ e ∈ evs, e.ex_set = s) :
    (∀ m, 0 ≤ normCount evs s m ∧ normCount evs s m ≤ 1) ∧
      ∀ m, binCount evs s m = maxBinCount evs s → normCount evs s m = 1 := by
  have hmaxQ : (0 : ℚ) < (maxBinCount evs s : ℚ) := by
    exact_mod_cast maxBinCount_pos evs s h
  constructor
  · intro m
    constructor
    · apply div_nonneg <;> positivity
    · rw [normCount, div_le_one hmaxQ]
      exact_mod_cast binCount_le_max evs s m
  · intro m hm
    rw [normCount, hm, div_self (ne_of_gt hmaxQ)]

/-- Witness for C7: in the two-event sample catalog, the bin at magnitude 2
of set 1 has the maximal count, and its normalized count is exactly 1. -/
theorem normCount_bounds_witness :
    (0 ≤ normCount fmdEvents 1 2 ∧ normCount fmdEvents 1 2 ≤ 1) ∧
      normCount fmdEvents 1 2 = 1 := by
  have h : ∃ e ∈ fmdEvents, e.ex_set = 1 := ⟨⟨2, 1⟩, by simp [fmdEvents], rfl⟩
  have thm := normCount_bounds fmdEvents 1 h
  refine ⟨thm.1 2, thm.2 2 ?_⟩
  norm_num [binCount, maxBinCount, bins, roundTenth, round_eq, fmdEvents,
    List.filter, List.dedup]

lemma length_filter_disjoint {α : Type} (p r : α → Bool)
    (hd : ∀ a, ¬(p a = true ∧ r a = true)) (l : List α) :
    (l.filter fun a => p a || r a).length
      = (l.filter p).length + (l.filter r).length := by
  induction l with
  | nil => simp
  | cons a l ih =>
      rcases Bool.eq_false_or_eq_true (p a) with hp | hp
      · have hr : r a = false := by
          rcases Bool.eq_false_or_eq_true (r a) with hr | hr
          · exact absurd ⟨hp, hr⟩ (hd a)
          · exact hr
        simp [List.filter_cons, hp, hr, ih] <;> omega
      · rcases Bool.eq_false_or_eq_true (r a) with hr | hr
        · simp [List.filter_cons, hp, hr, ih] <;> omega
        · simp [List.filter_cons, hp, hr, ih] <;> omega

lemma sum_map_filter_length (q : Event → ℚ) (L : List ℚ) (hL : L.Nodup)
    (l : List Event) :
    (L.map fun b => (l.filter fun e => decide (q e = b)).length).sum
      = (l.filter fun e => decide (q e ∈ L)).length := by
  induction L with
  | nil => simp
  | cons b L' ih =>
      rw [List.nodup_cons] at hL
      rw [List.map_cons, List.sum_cons, ih hL.2]
      have hcongr : ∀ e ∈ l, decide (q e ∈ b :: L')
          = (decide (q e = b) || decide (q e ∈ L')) := by
        intro e _
        simp [List.mem_cons]
      rw [List.filter_congr hcongr]
      rw [length_filter_disjoint]
      intro e he
      rw [decide_eq_true_eq] at he
      rcases he with ⟨h1, h2⟩
      rw [decide_eq_true_eq] at h2
      exact hL.1 (h1 ▸ h2)

lemma binCount_split (evs : List Event) (s : ℕ) (b : ℚ) :
    binCount evs s b
      = ((evs.filter fun e => decide (e.ex_set = s)).filter
          fun e => decide (roundTenth e.mag = b)).length := by
  unfold binCount
  rw [List.filter_filter]
  apply congrArg
  apply List.filter_congr
  intro e _
  exact Bool.and_comm _ _

lemma cumCount_eq (evs : List Event) (s : ℕ) (m : ℚ) :
    cumCount evs s m
      = ((evs.filter fun e => decide (e.ex_set = s)).filter
          fun e => decide (m ≤ roundTenth e.mag)).length := by
  unfold cumCount
  rw [List.map_congr_left fun b _ => binCount_split evs s b]
  have hbnodup : (bins evs).Nodup := by
    unfold bins
    exact List.nodup_dedup _
  rw [sum_map_filter_length _ _ (hbnodup.filter _)]
  apply congrArg
  apply List.filter_congr
  intro e he
  rw [List.mem_filter] at he
  have hb : roundTenth e.mag ∈ bins evs := mem_bins evs e he.1
  apply decide_eq_decide.mpr
  rw [List.mem_filter]
  constructor
  · intro hmem
    exact decide_eq_true_eq.mp hmem.2
  · intro hle
    exact ⟨hb, decide_eq_true_eq.mpr hle⟩

lemma cumCount_anti (evs : List Event) (s : ℕ) (m1 m2 : ℚ) (h : m1 ≤ m2) :
    cumCount evs s m2 ≤ cumCount evs s m1 := by
  rw [cumCount_eq, cumCount_eq]
  apply length_filter_mono
  intro e _ he
  rw [decide_eq_true_eq] at he ⊢
  exact le_trans h he

lemma foldr_min_le (x b : ℚ) (bs : List ℚ) (h : x ∈ b :: bs) :
    bs.foldr min b ≤ x := by
  induction bs generalizing b with
  | nil =>
      rw [List.mem_singleton] at h
      subst h
      simp
  | cons c cs ih =>
      rw [List.foldr_cons]
      rcases List.mem_cons.mp h with rfl | h'
      · exact le_trans (min_le_right _ _) (ih x (List.mem_cons_self x cs))
      · rcases List.mem_cons.mp h' with rfl | h''
        · exact min_le_left _ _
        · exact le_trans (min_le_right _ _)
            (ih b (List.mem_cons_of_mem b h''))

lemma foldr_min_mem (b : ℚ) (bs : List ℚ) : bs.foldr min b ∈ b :: bs := by
  induction bs generalizing b with
  | nil => simp
  | cons c cs ih =>
      rw [List.foldr_cons]
      rcases min_choice c (cs.foldr min b) with h | h
      · rw [h]
        exact List.mem_cons_of_mem b (List.mem_cons_self c cs)
      · rw [h]
        rcases List.mem_cons.mp (ih b) with h' | h'
        · rw [h']
          exact List.mem_cons_self b (c :: cs)
        · exact List.mem_cons_of_mem b (List.mem_cons_of_mem c h')

lemma minBin_le (evs : List Event) (m : ℚ) (hm : m ∈ bins evs) :
    minBin evs ≤ m := by
  rcases hbins : bins evs with _ | ⟨b, bs⟩
  · rw [hbins] at hm
    cases hm
  · rw [hbins] at hm
    simp only [minBin, hbins]
    exact foldr_min_le m b bs hm

lemma minBin_mem (evs : List Event) (hne : bins evs ≠ []) :
    minBin evs ∈ bins evs := by
  rcases hbins : bins evs with _ | ⟨b, bs⟩
  · exact absurd hbins hne
  · simp only [minBin, hbins]
    exact foldr_min_mem b bs

lemma cumCount_le_total (evs : List Event) (s : ℕ) (m : ℚ) :
    cumCount evs s m ≤ totalCount evs s := by
  rw [cumCount_eq, totalCount]
  exact List.length_filter_le _ _

lemma cumCount_minBin (evs : List Event) (s : ℕ) :
    cumCount evs s (minBin evs) = totalCount evs s := by
  rw [cumCount_eq, totalCount]
  apply congrArg
  apply List.filter_eq_self.mpr
  intro e he
  rw [List.mem_filter] at he
  rw [decide_eq_true_eq]
  exact minBin_le evs _ (mem_bins evs e he.1)

lemma maxCumCount_eq_total (evs : List Event) (s : ℕ)
    (h : ∃ e ∈ evs, e.ex_set = s) : maxCumCount evs s = totalCount evs s := by
  obtain ⟨e, he, _⟩ := h
  apply le_antisymm
  · apply natFoldr_max_le
    intro a ha
    obtain ⟨b, _, rfl⟩ := List.mem_map.mp ha
    exact cumCount_le_total evs s b
  · rw [← cumCount_minBin evs s]
    exact natMem_le_foldr_max _ _
      (List.mem_map_of_mem _
        (minBin_mem evs (List.ne_nil_of_mem (mem_bins evs e he))))

lemma totalCount_pos (evs : List Event) (s : ℕ)
    (h : ∃ e ∈ evs, e.ex_set = s) : 0 < totalCount evs s := by
  obtain ⟨e, he, hs⟩ := h
  rw [totalCount, List.length_pos]
  have hmem : e ∈ evs.filter fun e' => decide (e'.ex_set = s) := by
    rw [List.mem_filter]
    exact ⟨he, by simp [hs]⟩
  exact List.ne_nil_of_mem hmem

/-- Claim C8: per set (present in the catalog), the normalized
reverse-cumulative counts are non-increasing as magnitude increases, they
equal exactly 1 at the smallest magnitude bin, and the normalizing constant
the code uses (the column maximum of the cumulative table) equals the set's
total event count. -/
theorem normCum_monotone (evs : List Event) (s : ℕ)
    (h : ∃ e ∈ evs, e.ex_set = s) :
    (∀ m1 m2 : ℚ, m1 ≤ m2 → normCum evs s m2 ≤ normCum evs s m1) ∧
      normCum evs s (minBin evs) = 1 ∧
      maxCumCount evs s = totalCount evs s := by
  have hmax := maxCumCount_eq_total evs s h
  have hpos : (0 : ℚ) < (maxCumCount evs s : ℚ) := by
    rw [hmax]
    exact_mod_cast totalCount_pos evs s h
  refine ⟨?_, ?_, hmax⟩
  · intro m1 m2 h12
    unfold normCum
    apply div_le_div_of_nonneg_right ?_ (le_of_lt hpos)
    exact_mod_cast cumCount_anti evs s m1 m2 h12
  · unfold normCum
    rw [cumCount_minBin, ← hmax, div_self (ne_of_gt hpos)]

/-- Witness for C8: in the two-event sample catalog, the cumulative count is
1 exactly at the smallest bin, the normalizer equals the total count, and
the curve does not increase from magnitude 2 to 2.3. -/
theorem normCum_monotone_witness :
    normCum fmdEvents 1 (23/10) ≤ normCum fmdEvents 1 2 ∧
      normCum fmdEvents 1 (minBin fmdEvents) = 1 ∧
      maxCumCount fmdEvents 1 = totalCount fmdEvents 1 := by
  have h : ∃ e ∈ fmdEvents, e.ex_set = 1 := ⟨⟨2, 1⟩, by simp [fmdEvents], rfl⟩
  have thm := normCum_monotone fmdEvents 1 h
  exact ⟨thm.1 2 (23/10) (by norm_num), thm.2.1, thm.2.2⟩

/- ---------------------------------------------------------------------
   Lemmas and claim theorems about the set partitioner.
   --------------------------------------------------------------------- -/

lemma boundaryPairs_length (B : List ℤ) :
    (boundaryPairs B).length = B.length - 1 := by
  unfold boundaryPairs
  rw [List.length_zip, List.length_dropLast, List.length_tail, Nat.min_self]

lemma boundaryPairs_getD (B : List ℤ) (k : ℕ) (hk : k + 1 < B.length) :
    (boundaryPairs B).getD k (0, 0) = (B.getD k 0, B.getD (k + 1) 0) := by
  have h1 : k < (boundaryPairs B).length := by
    rw [boundaryPairs_length]
    omega
  rw [List.getD_eq_getElem _ _ h1,
    List.getD_eq_getElem _ _ (show k < B.length by omega),
    List.getD_eq_getElem _ _ hk]
  simp only [boundaryPairs, List.getElem_zip, List.getElem_dropLast,
    List.getElem_tail]

lemma mem_boundaryPairs_drop (B : List ℤ) (m : ℕ) (p : ℤ × ℤ)
    (hp : p ∈ (boundaryPairs B).drop m) :
    ∃ j, m ≤ j ∧ j + 1 < B.length ∧ p.1 = B.getD j 0 ∧
      p.2 = B.getD (j + 1) 0 := by
  obtain ⟨i, hi, hEq⟩ := List.getElem_of_mem hp
  have hips : m + i < (boundaryPairs B).length := by
    rw [List.length_drop] at hi
    omega
  have hjB : m + i + 1 < B.length := by
    rw [boundaryPairs_length] at hips
    omega
  have hpair : p = (B.getD (m + i) 0, B.getD (m + i + 1) 0) := by
    rw [← boundaryPairs_getD B (m + i) hjB, List.getD_eq_getElem _ _ hips,
      ← hEq]
    exact List.getElem_drop ..
  exact ⟨m + i, Nat.le_add_right m i, hjB, by rw [hpair], by rw [hpair]⟩

lemma assignFold_no_match (t : ℤ) (ps : List (ℤ × ℤ))
    (h : ∀ p ∈ ps, ¬(p.1 ≤ t ∧ t < p.2)) :
    ∀ i acc, assignFold t ps i acc = acc := by
  induction ps with
  | nil => intro i acc; rfl
  | cons q rest ih =>
      intro i acc
      obtain ⟨s, e⟩ := q
      simp only [assignFold]
      rw [if_neg (h (s, e) (List.mem_cons_self _ _))]
      exact ih (fun p hp => h p (List.mem_cons_of_mem _ hp)) (i + 1) acc

lemma assignFold_match (t : ℤ) (ps : List (ℤ × ℤ)) (k : ℕ)
    (hk : k < ps.length)
    (hmatch : (ps.getD k (0, 0)).1 ≤ t ∧ t < (ps.getD k (0, 0)).2)
    (hafter : ∀ p ∈ ps.drop (k + 1), ¬(p.1 ≤ t ∧ t < p.2)) :
    ∀ i acc, assignFold t ps i acc = i + k := by
  induction ps generalizing k with
  | nil => simp at hk
  | cons q rest ih =>
      intro i acc
      obtain ⟨s, e⟩ := q
      cases k with
      | zero =>
          simp only [assignFold]
          rw [List.getD_cons_zero] at hmatch
          rw [if_pos hmatch]
          have hafter' : ∀ p ∈ rest, ¬(p.1 ≤ t ∧ t < p.2) := by
            intro p hp
            exact hafter p (by simpa using hp)
          rw [assignFold_no_match t rest hafter' (i + 1) i]
          omega
      | succ k' =>
          simp only [assignFold]
          have hk' : k' < rest.length := by
            simp only [List.length_cons] at hk
            omega
          rw [List.getD_cons_succ] at hmatch
          have hafter' : ∀ p ∈ rest.drop (k' + 1), ¬(p.1 ≤ t ∧ t < p.2) := by
            intro p hp
            exact hafter p (by simpa using hp)
          rw [ih k' hk' hmatch hafter' (i + 1) _]
          omega

lemma tail_getLast (B : List ℤ) (h2 : 2 ≤ B.length) :
    B.tail.getLast? = some (B.getD (B.length - 1) 0) := by
  rw [List.getLast?_eq_getElem?, List.getElem?_tail, List.length_tail]
  have h : B.length - 1 - 1 + 1 = B.length - 1 := by omega
  rw [h, List.getElem?_eq_getElem (by omega), List.getD_eq_getElem _ _ (by omega)]

lemma exSet_eq_ite (B : List ℤ) (h2 : 2 ≤ B.length) (t : ℤ) :
    exSet B t = if B.getD (B.length - 1) 0 < t then (boundaryPairs B).length + 1
      else assignFold t (boundaryPairs B) 1 0 := by
  unfold exSet
  rw [tail_getLast B h2]

lemma sorted_getD_mono (B : List ℤ) (hs : List.Sorted (· ≤ ·) B) (i j : ℕ)
    (hij : i ≤ j) (hj : j < B.length) :
    B.getD i 0 ≤ B.getD j 0 := by
  rw [List.getD_eq_getElem _ _ (show i < B.length by omega),
    List.getD_eq_getElem _ _ hj]
  have h := hs.rel_get_of_le
    (show (⟨i, by omega⟩ : Fin B.length) ≤ ⟨j, hj⟩ from Fin.mk_le_mk.mpr hij)
  simpa using h

lemma exSet_lt_first (B : List ℤ) (hs : List.Sorted (· ≤ ·) B)
    (h2 : 2 ≤ B.length) (t : ℤ) (ht : t < B.getD 0 0) :
    exSet B t = 0 := by
  have h0last : B.getD 0 0 ≤ B.getD (B.length - 1) 0 :=
    sorted_getD_mono B hs 0 (B.length - 1) (Nat.zero_le _) (by omega)
  rw [exSet_eq_ite B h2 t, if_neg (by omega)]
  apply assignFold_no_match
  intro p hp
  obtain ⟨j, _, hj, hp1, hp2⟩ :=
    mem_boundaryPairs_drop B 0 p (by simpa using hp)
  intro hcon
  rw [hp1, hp2] at hcon
  have h0j : B.getD 0 0 ≤ B.getD j 0 :=
    sorted_getD_mono B hs 0 j (Nat.zero_le j) (by omega)
  omega

lemma exSet_pair (B : List ℤ) (hs : List.Sorted (· ≤ ·) B)
    (h2 : 2 ≤ B.length) (t : ℤ) (k : ℕ) (hk : k + 1 < B.length)
    (hge : B.getD k 0 ≤ t) (hlt : t < B.getD (k + 1) 0) :
    exSet B t = k + 1 := by
  have hle : B.getD (k + 1) 0 ≤ B.getD (B.length - 1) 0 :=
    sorted_getD_mono B hs (k + 1) (B.length - 1) (by omega) (by omega)
  rw [exSet_eq_ite B h2 t, if_neg (by omega)]
  have hkps : k < (boundaryPairs B).length := by
    rw [boundaryPairs_length]
    omega
  have hmatch : ((boundaryPairs B).getD k (0, 0)).1 ≤ t ∧
      t < ((boundaryPairs B).getD k (0, 0)).2 := by
    rw [boundaryPairs_getD B k hk]
    exact ⟨hge, hlt⟩
  have hafter : ∀ p ∈ (boundaryPairs B).drop (k + 1), ¬(p.1 ≤ t ∧ t < p.2) := by
    intro p hp
    obtain ⟨j, hmj, hj, hp1, hp2⟩ := mem_boundaryPairs_drop B (k + 1) p hp
    intro hcon
    rw [hp1, hp2] at hcon
    have : B.getD (k + 1) 0 ≤ B.getD j 0 :=
      sorted_getD_mono B hs (k + 1) j hmj (by omega)
    omega
  rw [assignFold_match t _ k hkps hmatch hafter 1 0]
  omega

lemma exSet_after_last (B : List ℤ) (h2 : 2 ≤ B.length) (t : ℤ)
    (ht : B.getD (B.length - 1) 0 < t) : exSet B t = B.length := by
  rw [exSet_eq_ite B h2 t, if_pos ht, boundaryPairs_length]
  omega

lemma exSet_at_last (B : List ℤ) (hs : List.Sorted (· ≤ ·) B)
    (h2 : 2 ≤ B.length) (t : ℤ) (ht : t = B.getD (B.length - 1) 0) :
    exSet B t = 0 := by
  rw [exSet_eq_ite B h2 t, if_neg (by omega)]
  apply assignFold_no_match
  intro p hp
  obtain ⟨j, _, hj, hp1, hp2⟩ :=
    mem_boundaryPairs_drop B 0 p (by simpa using hp)
  intro hcon
  rw [hp1, hp2] at hcon
  have : B.getD (j + 1) 0 ≤ B.getD (B.length - 1) 0 :=
    sorted_getD_mono B hs (j + 1) (B.length - 1) (by omega) (by omega)
  omega

lemma exists_pair_cover : ∀ (B : List ℤ), List.Sorted (· ≤ ·) B → ∀ t : ℤ,
    B.getD 0 0 ≤ t → t < B.getD (B.length - 1) 0 →
    ∃ k, k + 1 < B.length ∧ B.getD k 0 ≤ t ∧ t < B.getD (k + 1) 0 := by
  intro B
  induction B with
  | nil =>
      intro _ t hge hlt
      simp [List.getD] at hge hlt
      omega
  | cons b rest ih =>
      intro hs t hge hlt
      cases rest with
      | nil =>
          simp [List.getD] at hge hlt
          omega
      | cons b1 rest' =>
          rw [List.getD_cons_zero] at hge
          by_cases hc : t < b1
          · refine ⟨0, ?_, ?_, ?_⟩
            · simp only [List.length_cons]
              omega
            · rw [List.getD_cons_zero]
              exact hge
            · rw [List.getD_cons_succ, List.getD_cons_zero]
              exact hc
          · push_neg at hc
            have hs' : List.Sorted (· ≤ ·) (b1 :: rest') := hs.of_cons
            have hge' : (b1 :: rest').getD 0 0 ≤ t := by
              rw [List.getD_cons_zero]
              exact hc
            have hlt' : t < (b1 :: rest').getD ((b1 :: rest').length - 1) 0 := by
              have hidx : (b :: b1 :: rest').length - 1
                  = ((b1 :: rest').length - 1) + 1 := by
                simp only [List.length_cons]
                omega
              rw [hidx, List.getD_cons_succ] at hlt
              exact hlt
            obtain ⟨k, hk, h1, h2⟩ := ih hs' t hge' hlt'
            refine ⟨k + 1, ?_, ?_, ?_⟩
            · simp only [List.length_cons] at hk ⊢
              omega
            · rwa [List.getD_cons_succ]
            · rwa [List.getD_cons_succ]

/-- Counterexample to claim C1 as stated: with the sorted boundary list
[0, 10], a quake whose timestamp equals the last boundary (t = 10) is
assigned set 0, not the final set id 2 (number of pairs + 1) that the claim
requires for quakes at or after the last boundary: the tail mask of the code
uses a strict comparison. -/
theorem exSet_at_last_cex :
    List.Sorted (· ≤ ·) [(0 : ℤ), 10] ∧ exSet [(0 : ℤ), 10] 10 = 0 ∧
      exSet [(0 : ℤ), 10] 10 ≠ 2 := by
  refine ⟨by decide, by decide, by decide⟩

/-- Claim C1 (amended): for sorted boundaries B with at least two entries,
the partitioner assigns set 0 to a quake before the first boundary, set
k + 1 to a quake in the k-th consecutive half-open boundary interval
(pairs counted from 0), and the final set id B.length (= number of pairs
+ 1) to a quake strictly after the last boundary; a quake exactly at the
last boundary timestamp keeps set 0. -/
theorem exSet_assignment (B : List ℤ) (hs : List.Sorted (· ≤ ·) B)
    (h2 : 2 ≤ B.length) (t : ℤ) :
    (t < B.getD 0 0 → exSet B t = 0) ∧
    (∀ k, k + 1 < B.length → B.getD k 0 ≤ t → t < B.getD (k + 1) 0 →
        exSet B t = k + 1) ∧
    (B.getD (B.length - 1) 0 < t → exSet B t = B.length) ∧
    (t = B.getD (B.length - 1) 0 → exSet B t = 0) :=
  ⟨exSet_lt_first B hs h2 t, fun k hk => exSet_pair B hs h2 t k hk,
    exSet_after_last B h2 t, exSet_at_last B hs h2 t⟩

/-- Witness for C1: boundaries [0, 10]; a quake at t = 5 lies in pair 0 and
receives set 1. -/
theorem exSet_assignment_witness :
    List.Sorted (· ≤ ·) [(0 : ℤ), 10] ∧ exSet [(0 : ℤ), 10] 5 = 1 :=
  ⟨by decide,
    (exSet_assignment [(0 : ℤ), 10] (by decide) (by decide) 5).2.1 0
      (by decide) (by decide) (by decide)⟩

/-- Counterexample to claim C5 as stated: with the sorted boundaries [3, 7]
the timestamp t = 7 (the last boundary) is assigned set 0 although it does
not lie before the first boundary, so set 0's preimage is not the half-open
interval before the first boundary: the claimed gap-free interval partition
fails at the last boundary point. -/
theorem exSet_gap_cex :
    List.Sorted (· ≤ ·) [(3 : ℤ), 7] ∧ exSet [(3 : ℤ), 7] 7 = 0 ∧
      ¬((7 : ℤ) < 3) ∧ ¬((3 : ℤ) ≤ 7 ∧ (7 : ℤ) < 7) ∧ ¬((7 : ℤ) > 7) := by
  refine ⟨by decide, by decide, by decide, by decide, by decide⟩

/-- Claim C5 (amended): the partitioner is a function of the timestamp and
the sorted boundaries alone, so each quake gets exactly one set id, and the
preimages of the set ids are characterized as follows: set 0 is the union of
the open ray before the first boundary and the single point at the last
boundary; set k (1 ≤ k ≤ number of pairs) is exactly the k-th half-open
boundary interval; the final set is exactly the open ray after the last
boundary.  These preimages are pairwise disjoint and cover the time axis;
excluding the last-boundary point they are precisely the claimed half-open
intervals, with no gaps and no overlaps. -/
theorem exSet_partition (B : List ℤ) (hs : List.Sorted (· ≤ ·) B)
    (h2 : 2 ≤ B.length) (t : ℤ) :
    (exSet B t = 0 ↔ (t < B.getD 0 0 ∨ t = B.getD (B.length - 1) 0)) ∧
    (∀ k, 1 ≤ k → k < B.length →
        (exSet B t = k ↔ (B.getD (k - 1) 0 ≤ t ∧ t < B.getD k 0))) ∧
    (exSet B t = B.length ↔ B.getD (B.length - 1) 0 < t) := by
  have h0last : B.getD 0 0 ≤ B.getD (B.length - 1) 0 :=
    sorted_getD_mono B hs 0 (B.length - 1) (Nat.zero_le _) (by omega)
  rcases lt_or_le t (B.getD 0 0) with hA | hA
  · have hv := exSet_lt_first B hs h2 t hA
    refine ⟨?_, ?_, ?_⟩
    · simp only [hv]
      exact ⟨fun _ => Or.inl hA, fun _ => trivial⟩
    · intro k hk1 hk2
      have hk' : B.getD 0 0 ≤ B.getD (k - 1) 0 :=
        sorted_getD_mono B hs 0 (k - 1) (Nat.zero_le _) (by omega)
      constructor
      · intro h
        omega
      · intro h
        exact absurd h.1 (by omega)
    · constructor
      · intro h
        omega
      · intro h
        omega
  · rcases lt_trichotomy t (B.getD (B.length - 1) 0) with hB | hB | hB
    · obtain ⟨j, hj, hj1, hj2⟩ := exists_pair_cover B hs t hA hB
      have hv := exSet_pair B hs h2 t j hj hj1 hj2
      have hj1last : B.getD (j + 1) 0 ≤ B.getD (B.length - 1) 0 :=
        sorted_getD_mono B hs (j + 1) (B.length - 1) (by omega) (by omega)
      refine ⟨?_, ?_, ?_⟩
      · constructor
        · intro h
          omega
        · intro h
          rcases h with h | h
          · omega
          · omega
      · intro k hk1 hk2
        constructor
        · intro h
          have hjk : j = k - 1 := by omega
          have hjk1 : j + 1 = k := by omega
          rw [hjk] at hj1
          rw [hjk1] at hj2
          exact ⟨hj1, hj2⟩
        · intro h
          obtain ⟨hg, hl⟩ := h
          rcases Nat.lt_trichotomy (k - 1) j with hc | hc | hc
          · have : B.getD k 0 ≤ B.getD j 0 :=
              sorted_getD_mono B hs k j (by omega) (by omega)
            omega
          · omega
          · have : B.getD (j + 1) 0 ≤ B.getD (k - 1) 0 :=
              sorted_getD_mono B hs (j + 1) (k - 1) (by omega) (by omega)
            omega
      · constructor
        · intro h
          omega
        · intro h
          omega
    · have hv := exSet_at_last B hs h2 t hB
      refine ⟨?_, ?_, ?_⟩
      · simp only [hv]
        exact ⟨fun _ => Or.inr hB, fun _ => trivial⟩
      · intro k hk1 hk2
        have hkle : B.getD k 0 ≤ B.getD (B.length - 1) 0 :=
          sorted_getD_mono B hs k (B.length - 1) (by omega) (by omega)
        constructor
        · intro h
          omega
        · intro h
          obtain ⟨hg, hl⟩ := h
          omega
      · constructor
        · intro h
          omega
        · intro h
          omega
    · have hv := exSet_after_last B h2 t hB
      refine ⟨?_, ?_, ?_⟩
      · constructor
        · intro h
          omega
        · intro h
          rcases h with h | h
          · omega
          · omega
      · intro k hk1 hk2
        have hkle : B.getD k 0 ≤ B.getD (B.length - 1) 0 :=
          sorted_getD_mono B hs k (B.length - 1) (by omega) (by omega)
        constructor
        · intro h
          omega
        · intro h
          obtain ⟨hg, hl⟩ := h
          omega
      · simp only [hv]
        exact ⟨fun _ => hB, fun _ => trivial⟩

/-- Witness for C5: boundaries [0, 10]; the timestamp 12 lies on the open
ray after the last boundary and the characterization yields the final set
id 2. -/
theorem exSet_partition_witness :
    exSet [(0 : ℤ), 10] 12 = 2 :=
  (exSet_partition [(0 : ℤ), 10] (by decide) (by decide) 12).2.2.mpr
    (by decide)
